import Mathlib

/-!
A shallow embedding of the `threadpool` crate.

The source (`src/lib.rs`) is a fixed-size thread pool:

* `ThreadPool::new(size)` asserts `size > 0`, creates one mpsc channel, wraps the
  receiver in `Arc<Mutex<..>>`, and spawns `size` workers with
  `Worker::new(Arc::clone(&receiver))?` — the `?` propagates the first OS spawn error.
* `ThreadPool::execute(f)` does `self.sender.as_ref().unwrap().send(job).unwrap()`.
* `impl Drop for ThreadPool` does `drop(self.sender.take())` and then joins each
  worker in turn with `thread.join().unwrap()` after `worker.thread.take()`.
* Each worker thread loops `let message = receiver.lock().unwrap().recv();` and then
  matches: `Ok(job) => job()`, `Err(_) => break`.

OS-dependent outcomes (thread spawning, join results) are parameters (oracles), and
the effectful operations are instrumented with event traces so that ordering claims
("the precondition fires before any resource is created", "closing the sender
precedes every join") are statable.  Jobs are opaque zero-argument closures; the pool
never inspects them, so they are modelled by identifiers.
-/

namespace Threadpool

/-- An OS thread handle (`thread::JoinHandle<()>`), identified by a label. -/
abbrev ThreadHandle := Nat

/-- An OS error (`io::Error`) from a failed `Builder::spawn`, identified by a code. -/
abbrev OsError := Nat

/-- A job (`Box<dyn FnOnce() + Send + 'static>`): opaque to the pool, identified
by a label.  Its only observable lifecycle events are enqueue and execution. -/
abbrev Job := Nat

/-- Embeds `struct Worker`, whose one field is `thread: Option<thread::JoinHandle<()>>`. -/
structure Worker where
  thread : Option ThreadHandle
deriving DecidableEq

/-- Embeds `struct ThreadPool`: `workers: Vec<Worker>` and
`sender: Option<mpsc::Sender<Job>>`.  The sender is only ever taken and dropped, so
only its presence is modelled. -/
structure ThreadPool where
  workers : List Worker
  sender : Option Unit
deriving DecidableEq

/-- Embeds `Worker::new`: spawn the backing thread immediately; a spawn failure is
propagated by `?`.  `spawnRes` is the OS outcome of this `Builder::spawn` call. -/
def Worker.new (spawnRes : Except OsError ThreadHandle) : Except OsError Worker :=
  match spawnRes with
  | .error e => .error e
  | .ok t => .ok ⟨some t⟩

/-- Resource-creation events of `ThreadPool::new`, in program order. -/
inductive NewEvent where
  | channelCreated
  | threadSpawned (i : Nat)
deriving DecidableEq

/-- The three ways `ThreadPool::new` can end: the `assert!` panic, a propagated
spawn error (`Err`), or a constructed pool (`Ok`). -/
inductive NewOutcome where
  | panicked
  | err (e : OsError)
  | ok (p : ThreadPool)
deriving DecidableEq

/-- The loop `for _ in 0..size { workers.push(Worker::new(Arc::clone(&receiver))?); }`:
`i` is the index of the next spawn attempt, the second argument counts the remaining
iterations, and `spawn i` is the OS outcome of the `i`-th `Builder::spawn`.  Returns
the spawn events that happened together with the propagated result. -/
def mkWorkers (spawn : Nat → Except OsError ThreadHandle) :
    Nat → Nat → List NewEvent × Except OsError (List Worker)
  | _, 0 => ([], .ok [])
  | i, n + 1 =>
    match Worker.new (spawn i) with
    | .error e => ([], .error e)
    | .ok w =>
      let (evs, r) := mkWorkers spawn (i + 1) n
      (NewEvent.threadSpawned i :: evs,
        match r with
        | .error e => .error e
        | .ok ws => .ok (w :: ws))

/-- Embeds `ThreadPool::new(size)`, instrumented: `assert!(size > 0)` fires before the
channel is created and before any worker is spawned; then the channel is created and
the workers are built; on success the pool holds the workers and `Some(sender)`. -/
def ThreadPool.newRun (size : Nat) (spawn : Nat → Except OsError ThreadHandle) :
    List NewEvent × NewOutcome :=
  if size = 0 then ([], .panicked)
  else
    let (evs, r) := mkWorkers spawn 0 size
    (NewEvent.channelCreated :: evs,
      match r with
      | .error e => .err e
      | .ok ws => .ok ⟨ws, some ()⟩)

/-! ## Construction lemmas -/

theorem mkWorkers_ok_length (spawn : Nat → Except OsError ThreadHandle) :
    ∀ n i ws, (mkWorkers spawn i n).2 = .ok ws →
      ws.length = n ∧ ∀ w ∈ ws, w.thread.isSome = true := by
  intro n
  induction n with
  | zero =>
    intro i ws h
    simp only [mkWorkers] at h
    cases h
    simp
  | succ n ih =>
    intro i ws h
    simp only [mkWorkers] at h
    cases hs : spawn i with
    | error e => rw [hs] at h; simp [Worker.new] at h
    | ok t =>
      rw [hs] at h
      simp only [Worker.new] at h
      cases hr : (mkWorkers spawn (i + 1) n).2 with
      | error e =>
        rw [show mkWorkers spawn (i+1) n = ((mkWorkers spawn (i+1) n).1, .error e) from by
          rw [← hr]] at h
        simp at h
      | ok ws' =>
        rw [show mkWorkers spawn (i+1) n = ((mkWorkers spawn (i+1) n).1, .ok ws') from by
          rw [← hr]] at h
        simp at h
        obtain ⟨hlen, hsome⟩ := ih (i + 1) ws' hr
        subst h
        constructor
        · simp [hlen]
        · intro w hw
          rcases List.mem_cons.mp hw with h1 | h1
          · subst h1; rfl
          · exact hsome w h1

theorem mkWorkers_first_error (spawn : Nat → Except OsError ThreadHandle) :
    ∀ n i k e, i ≤ k → k < i + n → (∀ m, i ≤ m → m < k → ∃ t, spawn m = .ok t) →
      spawn k = .error e → (mkWorkers spawn i n).2 = .error e := by
  intro n
  induction n with
  | zero => intro i k e h1 h2; omega
  | succ n ih =>
    intro i k e h1 h2 hok he
    by_cases hik : k = i
    · subst hik
      simp only [mkWorkers, he, Worker.new]
    · have hik' : i < k := lt_of_le_of_ne h1 (fun h => hik h.symm)
      obtain ⟨t, ht⟩ := hok i le_rfl hik'
      simp only [mkWorkers, ht, Worker.new]
      have hrec := ih (i + 1) k e (by omega) (by omega)
        (fun m hm1 hm2 => hok m (by omega) hm2) he
      cases hr : (mkWorkers spawn (i + 1) n) with
      | mk evs r =>
        have : r = .error e := by rw [hr] at hrec; exact hrec
        subst this
        simp

/-- C1: if `ThreadPool::new(size)` with `size ≥ 1` returns `Ok(pool)`, the pool holds
exactly `size` workers and every worker's `thread` field holds a live handle. -/
theorem new_ok_pool_has_size_live_workers (size : Nat)
    (spawn : Nat → Except OsError ThreadHandle) (p : ThreadPool)
    (hsize : 1 ≤ size) (h : (ThreadPool.newRun size spawn).2 = .ok p) :
    p.workers.length = size ∧ ∀ w ∈ p.workers, w.thread.isSome = true := by
  have hne : ¬ size = 0 := by omega
  simp only [ThreadPool.newRun, hne, if_false] at h
  cases hr : (mkWorkers spawn 0 size).2 with
  | error e =>
    rw [show mkWorkers spawn 0 size = ((mkWorkers spawn 0 size).1, .error e) from by
      rw [← hr]] at h
    simp at h
  | ok ws =>
    rw [show mkWorkers spawn 0 size = ((mkWorkers spawn 0 size).1, .ok ws) from by
      rw [← hr]] at h
    simp at h
    obtain ⟨hlen, hsome⟩ := mkWorkers_ok_length spawn size 0 ws hr
    rw [← h]
    exact ⟨hlen, hsome⟩

/-- Witness for C1 at `size = 2` with both spawns succeeding. -/
theorem new_ok_pool_has_size_live_workers_witness :
    (⟨[⟨some 0⟩, ⟨some 1⟩], some ()⟩ : ThreadPool).workers.length = 2 ∧
      ∀ w ∈ (⟨[⟨some 0⟩, ⟨some 1⟩], some ()⟩ : ThreadPool).workers,
        w.thread.isSome = true :=
  new_ok_pool_has_size_live_workers 2 (fun i => .ok i) ⟨[⟨some 0⟩, ⟨some 1⟩], some ()⟩
    (by decide) (by decide)

/-- C2: `ThreadPool::new(0)` panics on the `assert!(size > 0)` for every possible OS
behaviour: it returns neither a pool nor an `Err`. -/
theorem new_zero_panics (spawn : Nat → Except OsError ThreadHandle) :
    (ThreadPool.newRun 0 spawn).2 = NewOutcome.panicked := rfl

/-- C9: the `assert!(size > 0)` fires before any resource is created: on
`ThreadPool::new(0)` the event trace is empty — no channel is created and no thread
is spawned — and the call panics. -/
theorem new_zero_creates_no_resources (spawn : Nat → Except OsError ThreadHandle) :
    (ThreadPool.newRun 0 spawn).1 = [] ∧
      (ThreadPool.newRun 0 spawn).2 = NewOutcome.panicked :=
  ⟨rfl, rfl⟩

/-- C3: if the first failing spawn among the `size` requested is attempt `k` with
error `e`, `ThreadPool::new` returns `Err(e)` — a recoverable error, not a pool. -/
theorem new_spawn_failure_returns_err (size k : Nat) (e : OsError)
    (spawn : Nat → Except OsError ThreadHandle)
    (hk : k < size) (hok : ∀ m, m < k → ∃ t, spawn m = .ok t)
    (he : spawn k = .error e) :
    (ThreadPool.newRun size spawn).2 = NewOutcome.err e := by
  have hne : ¬ size = 0 := by omega
  simp only [ThreadPool.newRun, hne, if_false]
  have hr := mkWorkers_first_error spawn size 0 k e (Nat.zero_le k) (by omega)
    (fun m _ hm => hok m hm) he
  cases hm : (mkWorkers spawn 0 size) with
  | mk evs r =>
    have : r = .error e := by rw [hm] at hr; exact hr
    subst this
    simp

/-- Witness for C3: a pool of size 2 whose second spawn fails with error 3. -/
theorem new_spawn_failure_returns_err_witness :
    (ThreadPool.newRun 2 (fun i => if i = 1 then .error 3 else .ok i)).2 =
      NewOutcome.err 3 :=
  new_spawn_failure_returns_err 2 1 3 (fun i => if i = 1 then .error 3 else .ok i)
    (by decide) (by intro m hm; interval_cases m; exact ⟨0, rfl⟩) rfl

/-! ## `ThreadPool::execute` -/

/-- Whether an execute call completes normally or panics (a failed `unwrap`). -/
inductive ExecOutcome where
  | ok
  | panicked
deriving DecidableEq

/-- Embeds `self.sender.as_ref().unwrap().send(job).unwrap()`.  `receiverAlive` is whether
any receiving end of the channel still exists; `mpsc::Sender::send` returns
`Err(SendError)` exactly when it does not, and the second `unwrap` turns that into a
panic.  `queue` is the channel's buffer; on success the job joins its back. -/
def ThreadPool.execute (p : ThreadPool) (receiverAlive : Bool) (queue : List Job)
    (j : Job) : ExecOutcome × List Job :=
  match p.sender with
  | none => (.panicked, queue)
  | some _ => if receiverAlive then (.ok, queue ++ [j]) else (.panicked, queue)

/-- C4: on a live pool (its sender present), submitting while no receiver exists
panics — the `Disconnected` send error is unwrapped into a hard failure and the job is
not enqueued silently — while submitting with a receiver alive always succeeds and
enqueues the job. -/
theorem execute_disconnected_panics_else_succeeds (p : ThreadPool) (queue : List Job)
    (j : Job) (hs : p.sender = some ()) :
    p.execute false queue j = (ExecOutcome.panicked, queue) ∧
      p.execute true queue j = (ExecOutcome.ok, queue ++ [j]) := by
  simp [ThreadPool.execute, hs]

/-- Witness for C4: a one-worker pool, a queue holding job 5, submitting job 9. -/
theorem execute_disconnected_panics_else_succeeds_witness :
    (⟨[⟨some 0⟩], some ()⟩ : ThreadPool).execute false [5] 9 =
        (ExecOutcome.panicked, [5]) ∧
      (⟨[⟨some 0⟩], some ()⟩ : ThreadPool).execute true [5] 9 =
        (ExecOutcome.ok, [5, 9]) :=
  execute_disconnected_panics_else_succeeds ⟨[⟨some 0⟩], some ()⟩ [5] 9 rfl

/-! ## `impl Drop for ThreadPool` -/

/-- Observable events of the teardown, in program order. -/
inductive DropEvent where
  | closeSender
  | joined (t : ThreadHandle)
deriving DecidableEq

/-- Whether the teardown body completes normally or panics (a `join` that returned
`Err` because the worker thread panicked, unwrapped). -/
inductive DropOutcome where
  | ok
  | panicked
deriving DecidableEq

/-- The loop `for worker in &mut self.workers { if let Some(thread) =
worker.thread.take() { thread.join().unwrap(); } }`.  `joinPanics t` is the OS
outcome of joining handle `t` (`true` means `join` returned `Err`).  Returns the join
events, the outcome, and the workers as the loop leaves them: a panic at worker `i`
stops the loop, leaving later workers untouched. -/
def dropWorkers (joinPanics : ThreadHandle → Bool) :
    List Worker → List DropEvent × DropOutcome × List Worker
  | [] => ([], .ok, [])
  | w :: ws =>
    match w.thread with
    | none =>
      let (evs, o, ws') := dropWorkers joinPanics ws
      (evs, o, ⟨none⟩ :: ws')
    | some t =>
      if joinPanics t then ([.joined t], .panicked, ⟨none⟩ :: ws)
      else
        let (evs, o, ws') := dropWorkers joinPanics ws
        (.joined t :: evs, o, ⟨none⟩ :: ws')

/-- Embeds `ThreadPool::drop`: first `drop(self.sender.take())` — which closes the sending
side exactly when the sender was still present — then join each worker in turn. -/
def ThreadPool.dropRun (joinPanics : ThreadHandle → Bool) (p : ThreadPool) :
    List DropEvent × DropOutcome × ThreadPool :=
  let closeEvs := match p.sender with
    | some _ => [DropEvent.closeSender]
    | none => []
  let (evs, o, ws') := dropWorkers joinPanics p.workers
  (closeEvs ++ evs, o, ⟨ws', none⟩)

theorem dropWorkers_events_are_joins (joinPanics : ThreadHandle → Bool) :
    ∀ ws, ∀ e ∈ (dropWorkers joinPanics ws).1, ∃ t, e = DropEvent.joined t := by
  intro ws
  induction ws with
  | nil => intro e he; simp [dropWorkers] at he
  | cons w ws ih =>
    intro e he
    cases hw : w.thread with
    | none =>
      simp only [dropWorkers, hw] at he
      exact ih e he
    | some t =>
      simp only [dropWorkers, hw] at he
      by_cases hp : joinPanics t
      · simp [hp] at he
        exact ⟨t, he⟩
      · simp [hp] at he
        rcases he with h1 | h1
        · exact ⟨t, h1⟩
        · exact ih e h1

/-- C5: on a live pool, the teardown's very first event closes the sending side, and
every later event is a thread join: the close strictly precedes every join. -/
theorem drop_close_precedes_joins (joinPanics : ThreadHandle → Bool) (p : ThreadPool)
    (hs : p.sender = some ()) :
    ∃ rest, (p.dropRun joinPanics).1 = DropEvent.closeSender :: rest ∧
      ∀ e ∈ rest, ∃ t, e = DropEvent.joined t := by
  refine ⟨(dropWorkers joinPanics p.workers).1, ?_, ?_⟩
  · simp [ThreadPool.dropRun, hs]
  · exact dropWorkers_events_are_joins joinPanics p.workers

/-- Witness for C5: a two-worker pool with no join panicking. -/
theorem drop_close_precedes_joins_witness :
    ∃ rest, ((⟨[⟨some 0⟩, ⟨some 1⟩], some ()⟩ : ThreadPool).dropRun
        (fun _ => false)).1 = DropEvent.closeSender :: rest ∧
      ∀ e ∈ rest, ∃ t, e = DropEvent.joined t :=
  drop_close_precedes_joins (fun _ => false) ⟨[⟨some 0⟩, ⟨some 1⟩], some ()⟩ rfl

theorem dropWorkers_panics_of_mem (joinPanics : ThreadHandle → Bool) :
    ∀ ws t, Worker.mk (some t) ∈ ws → joinPanics t = true →
      (dropWorkers joinPanics ws).2.1 = DropOutcome.panicked := by
  intro ws
  induction ws with
  | nil => intro t ht; simp at ht
  | cons w ws ih =>
    intro t ht hp
    rcases List.mem_cons.mp ht with h1 | h1
    · subst h1
      simp only [dropWorkers, hp, if_true]
    · cases hw : w.thread with
      | none =>
        simp only [dropWorkers, hw]
        exact ih t h1 hp
      | some t' =>
        simp only [dropWorkers, hw]
        by_cases hp' : joinPanics t'
        · simp [hp']
        · simp only [hp', if_false]
          exact ih t h1 hp

/-- C8: if any worker still holds a thread handle whose join fails (the worker
thread panicked), the teardown body panics — it neither returns normally nor reports
a recoverable error. -/
theorem drop_join_failure_panics (joinPanics : ThreadHandle → Bool) (p : ThreadPool)
    (t : ThreadHandle) (hmem : Worker.mk (some t) ∈ p.workers)
    (hp : joinPanics t = true) :
    (p.dropRun joinPanics).2.1 = DropOutcome.panicked := by
  simp only [ThreadPool.dropRun]
  exact dropWorkers_panics_of_mem joinPanics p.workers t hmem hp

/-- Witness for C8: a two-worker pool whose second worker's thread (handle 1)
panicked. -/
theorem drop_join_failure_panics_witness :
    ((⟨[⟨some 0⟩, ⟨some 1⟩], some ()⟩ : ThreadPool).dropRun
      (fun t => t = 1)).2.1 = DropOutcome.panicked :=
  drop_join_failure_panics (fun t => t = 1) ⟨[⟨some 0⟩, ⟨some 1⟩], some ()⟩ 1
    (by decide) (by decide)

theorem dropWorkers_ok_threads_taken (joinPanics : ThreadHandle → Bool) :
    ∀ ws, (dropWorkers joinPanics ws).2.1 = DropOutcome.ok →
      ∀ w ∈ (dropWorkers joinPanics ws).2.2, w.thread = none := by
  intro ws
  induction ws with
  | nil => intro _ w hw; simp [dropWorkers] at hw
  | cons w ws ih =>
    intro ho w' hw'
    cases hw : w.thread with
    | none =>
      simp only [dropWorkers, hw] at ho hw'
      rcases List.mem_cons.mp hw' with h1 | h1
      · subst h1; rfl
      · exact ih ho w' h1
    | some t =>
      by_cases hp : joinPanics t
      · simp [dropWorkers, hw, hp] at ho
      · simp only [dropWorkers, hw, hp, if_false] at ho hw'
        rcases List.mem_cons.mp hw' with h1 | h1
        · subst h1; rfl
        · exact ih ho w' h1

theorem dropWorkers_all_none_noop (joinPanics : ThreadHandle → Bool) :
    ∀ ws, (∀ w ∈ ws, w.thread = none) →
      dropWorkers joinPanics ws = ([], DropOutcome.ok, ws) := by
  intro ws
  induction ws with
  | nil => intro _; rfl
  | cons w ws ih =>
    intro h
    have hw : w.thread = none := h w (List.mem_cons_self w ws)
    have hrest := ih (fun w' hw' => h w' (List.mem_cons_of_mem w hw'))
    simp only [dropWorkers, hw, hrest]
    cases w with
    | mk th => cases hw; rfl

/-- C10: after the teardown body runs once to completion, the sender is `None` and
every worker's thread handle is `None`; running the same body again on the resulting
pool emits no event — in particular it joins no thread — succeeds, and leaves the
pool unchanged. -/
theorem drop_idempotent (joinPanics : ThreadHandle → Bool) (p : ThreadPool)
    (h : (p.dropRun joinPanics).2.1 = DropOutcome.ok) :
    (p.dropRun joinPanics).2.2.sender = none ∧
      (∀ w ∈ (p.dropRun joinPanics).2.2.workers, w.thread = none) ∧
      (p.dropRun joinPanics).2.2.dropRun joinPanics =
        ([], DropOutcome.ok, (p.dropRun joinPanics).2.2) := by
  have ho : (dropWorkers joinPanics p.workers).2.1 = DropOutcome.ok := by
    simpa [ThreadPool.dropRun] using h
  have htaken := dropWorkers_ok_threads_taken joinPanics p.workers ho
  refine ⟨rfl, ?_, ?_⟩
  · intro w hw
    exact htaken w (by simpa [ThreadPool.dropRun] using hw)
  · simp only [ThreadPool.dropRun]
    rw [dropWorkers_all_none_noop joinPanics (dropWorkers joinPanics p.workers).2.2
      htaken]
    simp

/-- Witness for C10: a two-worker pool with no join panicking. -/
theorem drop_idempotent_witness :
    ((⟨[⟨some 0⟩, ⟨some 1⟩], some ()⟩ : ThreadPool).dropRun
        (fun _ => false)).2.2.sender = none ∧
      (∀ w ∈ ((⟨[⟨some 0⟩, ⟨some 1⟩], some ()⟩ : ThreadPool).dropRun
        (fun _ => false)).2.2.workers, w.thread = none) ∧
      (((⟨[⟨some 0⟩, ⟨some 1⟩], some ()⟩ : ThreadPool).dropRun
          (fun _ => false)).2.2.dropRun (fun _ => false) =
        ([], DropOutcome.ok, ((⟨[⟨some 0⟩, ⟨some 1⟩], some ()⟩ : ThreadPool).dropRun
          (fun _ => false)).2.2)) :=
  drop_idempotent (fun _ => false) ⟨[⟨some 0⟩, ⟨some 1⟩], some ()⟩ (by decide)

/-! ## The worker loop's lock discipline

The spawned thread runs `loop { let message = receiver.lock().unwrap().recv(); match
message { Ok(job) => job(), Err(_) => break } }`.  The mutex guard produced by
`receiver.lock().unwrap()` is a temporary of the `let` statement, so it is dropped at
the end of that statement — after `recv` returns but before the `match` runs the job.
One loop iteration is therefore the event sequence below, and a whole worker run is
the iterations for each received job followed by the closing iteration. -/

/-- Events of the worker thread, in program order within each iteration. -/
inductive WEvent where
  | lockAcquired
  | recvGot (j : Job)
  | recvClosed
  | lockReleased
  | ran (j : Job)
  | loopExited
deriving DecidableEq

/-- One iteration of the worker loop: acquire the lock, receive (`some j` when a job
arrives, `none` when the channel reports closure), release the lock at the end of the
`let` statement, then either run the job or break out of the loop. -/
def workerIter : Option Job → List WEvent
  | some j => [.lockAcquired, .recvGot j, .lockReleased, .ran j]
  | none => [.lockAcquired, .recvClosed, .lockReleased, .loopExited]

/-- A full worker run that receives the jobs `msgs` in order and then observes
closure. -/
def workerRun : List Job → List WEvent
  | [] => workerIter none
  | m :: ms => workerIter (some m) ++ workerRun ms

/-- Scans a trace keeping the lock-hold depth `d` (acquisitions minus releases so
far); `true` iff every `ran` event happens at depth `0`, i.e. with the lock free. -/
def runsOutsideLock (d : Nat) : List WEvent → Bool
  | [] => true
  | .lockAcquired :: tr => runsOutsideLock (d + 1) tr
  | .lockReleased :: tr => runsOutsideLock (d - 1) tr
  | .ran _ :: tr => (d == 0) && runsOutsideLock d tr
  | _ :: tr => runsOutsideLock d tr

/-- Scans a trace keeping the lock-hold depth `d`; `true` iff every receive event
(`recvGot` or `recvClosed`) happens at depth `1`, i.e. with the lock held. -/
def recvsUnderLock (d : Nat) : List WEvent → Bool
  | [] => true
  | .lockAcquired :: tr => recvsUnderLock (d + 1) tr
  | .lockReleased :: tr => recvsUnderLock (d - 1) tr
  | .recvGot _ :: tr => (d == 1) && recvsUnderLock d tr
  | .recvClosed :: tr => (d == 1) && recvsUnderLock d tr
  | _ :: tr => recvsUnderLock d tr

/-- C7: in every worker run, each receive attempt happens with the lock held and
every job runs with the lock free — the lock is held exactly for the receive attempt
and released before the received job executes. -/
theorem worker_lock_discipline (msgs : List Job) :
    runsOutsideLock 0 (workerRun msgs) = true ∧
      recvsUnderLock 0 (workerRun msgs) = true := by
  induction msgs with
  | nil => exact ⟨rfl, rfl⟩
  | cons m ms ih =>
    refine ⟨?_, ?_⟩
    · simpa [workerRun, workerIter, runsOutsideLock] using ih.1
    · simpa [workerRun, workerIter, recvsUnderLock] using ih.2

/-! ## Drain-before-teardown: a transition system for the whole pool

The concurrent behaviour of the pool is an interleaving of: submissions
(`execute` sending into the channel while the sender is live), the sender drop that
begins teardown (`drop(self.sender.take())`), each worker's receive step
(`recv` under the mutex returns the oldest buffered job, or `Err` once the channel
is both empty and closed — that is `mpsc`'s contract: buffered jobs survive the
sender's drop), each worker's job completion, and the joins (`thread.join()`
returns exactly when that worker's loop has exited).  "Teardown has returned" is
therefore the state where the channel is closed and every worker has terminated. -/

/-- The worker loop's state: waiting on `recv`, running a job, or exited. -/
inductive WStatus where
  | idle
  | executing (j : Job)
  | terminated
deriving DecidableEq

/-- The job a worker is currently running, if any. -/
def WStatus.jobOf : WStatus → Option Job
  | .executing j => some j
  | _ => none

/-- The multiset of jobs currently being executed by the workers. -/
def execUnderway (ws : List WStatus) : Multiset Job :=
  Multiset.ofList (ws.filterMap WStatus.jobOf)

/-- A global state of the pool system. -/
structure SysState where
  queue : List Job
  closed : Bool
  workers : List WStatus
  executed : List Job
  submitted : List Job
deriving DecidableEq

/-- The state right after a successful `ThreadPool::new(n)`: empty channel, live
sender, `n` workers blocked on `recv`, nothing yet submitted or executed. -/
def initState (n : Nat) : SysState :=
  ⟨[], false, List.replicate n WStatus.idle, [], []⟩

/-- One atomic step of the pool system. -/
inductive Step : SysState → SysState → Prop where
  | submit (s : SysState) (j : Job) (h : s.closed = false) :
      Step s { s with queue := s.queue ++ [j], submitted := s.submitted ++ [j] }
  | close (s : SysState) (h : s.closed = false) :
      Step s { s with closed := true }
  | recvJob (s : SysState) (i : Nat) (j : Job) (rest : List Job)
      (hw : s.workers[i]? = some WStatus.idle) (hq : s.queue = j :: rest) :
      Step s { s with queue := rest,
                      workers := s.workers.set i (WStatus.executing j) }
  | recvClosed (s : SysState) (i : Nat)
      (hw : s.workers[i]? = some WStatus.idle) (hq : s.queue = [])
      (hc : s.closed = true) :
      Step s { s with workers := s.workers.set i WStatus.terminated }
  | finish (s : SysState) (i : Nat) (j : Job)
      (hw : s.workers[i]? = some (WStatus.executing j)) :
      Step s { s with workers := s.workers.set i WStatus.idle,
                      executed := s.executed ++ [j] }

/-- The states a pool of `n` workers can be in after any interleaving. -/
def Reachable (n : Nat) (s : SysState) : Prop :=
  Relation.ReflTransGen Step (initState n) s

/-- The multiset contributed by one worker slot. -/
def optJob : Option Job → Multiset Job
  | none => 0
  | some j => {j}

theorem filterMap_set_add_optJob (f : WStatus → Option Job) (l : List WStatus)
    (i : Nat) (a b : WStatus) (h : l[i]? = some a) :
    Multiset.ofList ((l.set i b).filterMap f) + optJob (f a) =
      Multiset.ofList (l.filterMap f) + optJob (f b) := by
  induction l generalizing i with
  | nil => simp at h
  | cons x xs ih =>
    cases i with
    | zero =>
      have hx : x = a := by simpa using h
      subst hx
      show Multiset.ofList ((b :: xs).filterMap f) + optJob (f x) =
        Multiset.ofList ((x :: xs).filterMap f) + optJob (f b)
      cases hfa : f x with
      | none =>
        cases hfb : f b with
        | none =>
          rw [List.filterMap_cons_none hfb, List.filterMap_cons_none hfa]
        | some jb =>
          rw [List.filterMap_cons_some hfb, List.filterMap_cons_none hfa]
          simp only [optJob, ← Multiset.cons_coe, ← Multiset.singleton_add,
            add_zero]
          exact add_comm _ _
      | some ja =>
        cases hfb : f b with
        | none =>
          rw [List.filterMap_cons_none hfb, List.filterMap_cons_some hfa]
          simp only [optJob, ← Multiset.cons_coe, ← Multiset.singleton_add,
            add_zero]
          exact add_comm _ _
        | some jb =>
          rw [List.filterMap_cons_some hfb, List.filterMap_cons_some hfa]
          simp only [optJob, ← Multiset.cons_coe, ← Multiset.singleton_add]
          abel
    | succ i =>
      have h' : xs[i]? = some a := by simpa using h
      show Multiset.ofList ((x :: xs.set i b).filterMap f) + optJob (f a) =
        Multiset.ofList ((x :: xs).filterMap f) + optJob (f b)
      cases hfx : f x with
      | none =>
        rw [List.filterMap_cons_none hfx, List.filterMap_cons_none hfx]
        exact ih i h'
      | some jx =>
        rw [List.filterMap_cons_some hfx, List.filterMap_cons_some hfx]
        simp only [← Multiset.cons_coe, Multiset.cons_add]
        rw [ih i h']

theorem ofList_append (l1 l2 : List Job) :
    Multiset.ofList (l1 ++ l2) = Multiset.ofList l1 + Multiset.ofList l2 := rfl

theorem ofList_cons (j : Job) (l : List Job) :
    Multiset.ofList (j :: l) = {j} + Multiset.ofList l := rfl

theorem ofList_singleton (j : Job) : Multiset.ofList [j] = {j} := rfl

/-- The inductive invariant: the worker count is fixed; no worker terminates before
the channel closes; once the channel is closed and every worker has terminated the
buffer is empty; and every submitted job is accounted for — still buffered, underway
in some worker, or executed. -/
def Inv (n : Nat) (s : SysState) : Prop :=
  s.workers.length = n ∧
  (s.closed = false → WStatus.terminated ∉ s.workers) ∧
  ((s.closed = true ∧ ∀ w ∈ s.workers, w = WStatus.terminated) → s.queue = []) ∧
  Multiset.ofList s.submitted =
    Multiset.ofList s.queue + execUnderway s.workers + Multiset.ofList s.executed

theorem Inv_initState (n : Nat) : Inv n (initState n) := by
  refine ⟨by simp [initState], ?_, ?_, ?_⟩
  · intro _ hmem
    rw [initState] at hmem
    rcases List.mem_replicate.mp hmem with ⟨-, h2⟩
    exact absurd h2 (by simp)
  · rintro ⟨hc, -⟩
    simp [initState] at hc
  · simp [initState, execUnderway, List.filterMap_replicate_of_none
      (show WStatus.jobOf WStatus.idle = none from rfl)]

theorem Inv_step (n : Nat) (hn : 1 ≤ n) {s s' : SysState} (hstep : Step s s')
    (hinv : Inv n s) : Inv n s' := by
  obtain ⟨hlen, hK, hJ, hM⟩ := hinv
  cases hstep with
  | submit j h =>
    refine ⟨hlen, hK, ?_, ?_⟩
    · rintro ⟨hc, -⟩
      dsimp only at hc
      rw [h] at hc
      exact absurd hc (by decide)
    · dsimp only
      rw [ofList_append, ofList_append, hM]
      abel
  | close h =>
    refine ⟨hlen, ?_, ?_, hM⟩
    · intro hc
      dsimp only at hc
      exact absurd hc (by decide)
    · rintro ⟨-, hall⟩
      dsimp only at hall ⊢
      have hne : s.workers ≠ [] := by
        intro hnil
        rw [hnil] at hlen
        simp at hlen
        omega
      obtain ⟨w, hw⟩ := List.exists_mem_of_ne_nil s.workers hne
      have hterm := hall w hw
      exact absurd (hterm ▸ hw) (hK h)
  | recvJob i j rest hw hq =>
    have hi : i < s.workers.length := (List.getElem?_eq_some_iff.mp hw).1
    refine ⟨?_, ?_, ?_, ?_⟩
    · dsimp only
      rw [List.length_set]
      exact hlen
    · intro hc hmem
      dsimp only at hc hmem
      rcases List.mem_or_eq_of_mem_set hmem with h1 | h1
      · exact hK hc h1
      · simp at h1
    · rintro ⟨-, hall⟩
      dsimp only at hall
      have hlt : i < (s.workers.set i (WStatus.executing j)).length := by
        rw [List.length_set]
        exact hi
      have hget : (s.workers.set i (WStatus.executing j))[i] =
          WStatus.executing j := List.getElem_set_self hlt
      have hmem := hall _ (hget ▸ List.getElem_mem hlt)
      simp at hmem
    · dsimp only
      have key := filterMap_set_add_optJob WStatus.jobOf s.workers i
        WStatus.idle (WStatus.executing j) hw
      have key' : execUnderway (s.workers.set i (WStatus.executing j)) =
          execUnderway s.workers + {j} := by
        simpa [execUnderway, WStatus.jobOf, optJob] using key
      rw [key', hM, hq, ofList_cons]
      abel
  | recvClosed i hw hq hc =>
    refine ⟨?_, ?_, ?_, ?_⟩
    · dsimp only
      rw [List.length_set]
      exact hlen
    · intro hcc
      dsimp only at hcc
      rw [hcc] at hc
      exact absurd hc (by decide)
    · rintro ⟨-, -⟩
      dsimp only
      exact hq
    · dsimp only
      have key := filterMap_set_add_optJob WStatus.jobOf s.workers i
        WStatus.idle WStatus.terminated hw
      have key' : execUnderway (s.workers.set i WStatus.terminated) =
          execUnderway s.workers := by
        simpa [execUnderway, WStatus.jobOf, optJob] using key
      rw [key']
      exact hM
  | finish i j hw =>
    have hi : i < s.workers.length := (List.getElem?_eq_some_iff.mp hw).1
    refine ⟨?_, ?_, ?_, ?_⟩
    · dsimp only
      rw [List.length_set]
      exact hlen
    · intro hcc hmem
      dsimp only at hcc hmem
      rcases List.mem_or_eq_of_mem_set hmem with h1 | h1
      · exact hK hcc h1
      · simp at h1
    · rintro ⟨-, hall⟩
      dsimp only at hall
      have hlt : i < (s.workers.set i WStatus.idle).length := by
        rw [List.length_set]
        exact hi
      have hget : (s.workers.set i WStatus.idle)[i] = WStatus.idle :=
        List.getElem_set_self hlt
      have hmem := hall _ (hget ▸ List.getElem_mem hlt)
      simp at hmem
    · dsimp only
      have key := filterMap_set_add_optJob WStatus.jobOf s.workers i
        (WStatus.executing j) WStatus.idle hw
      have key' : execUnderway (s.workers.set i WStatus.idle) + {j} =
          execUnderway s.workers := by
        simpa [execUnderway, WStatus.jobOf, optJob] using key
      rw [hM, ← key', ofList_append, ofList_singleton]
      abel

theorem Inv_reachable (n : Nat) (hn : 1 ≤ n) (s : SysState)
    (h : Reachable n s) : Inv n s := by
  induction h with
  | refl => exact Inv_initState n
  | tail _ hstep ih => exact Inv_step n hn hstep ih

/-- C6: in a pool of `n ≥ 1` workers, in every reachable state where teardown has
returned — the channel is closed and every worker thread has terminated (so every
join has succeeded) — the multiset of executed jobs equals the multiset of
successfully enqueued jobs: no enqueued job is abandoned, each is run to
completion before teardown returns. -/
theorem enqueued_jobs_executed_before_teardown_returns (n : Nat) (s : SysState)
    (hn : 1 ≤ n) (hr : Reachable n s) (hc : s.closed = true)
    (ht : ∀ w ∈ s.workers, w = WStatus.terminated) :
    Multiset.ofList s.executed = Multiset.ofList s.submitted := by
  obtain ⟨hlen, hK, hJ, hM⟩ := Inv_reachable n hn s hr
  have hq : s.queue = [] := hJ ⟨hc, ht⟩
  have hexec : execUnderway s.workers = 0 := by
    have : s.workers.filterMap WStatus.jobOf = [] := by
      rw [List.filterMap_eq_nil_iff]
      intro w hw
      rw [ht w hw]
      rfl
    rw [execUnderway, this]
    rfl
  rw [hM, hq, hexec]
  rfl

/-- Witness for C6: one worker, one job submitted, then close, receive, run,
observe closure; at the final state the executed jobs are the submitted jobs. -/
theorem enqueued_jobs_executed_witness :
    Multiset.ofList (SysState.mk [] true [WStatus.terminated] [7] [7]).executed =
      Multiset.ofList (SysState.mk [] true [WStatus.terminated] [7] [7]).submitted := by
  refine enqueued_jobs_executed_before_teardown_returns 1
    (SysState.mk [] true [WStatus.terminated] [7] [7]) (by decide) ?_ rfl
    (by intro w hw; simpa using hw)
  refine Relation.ReflTransGen.head (Step.submit (initState 1) 7 rfl) ?_
  refine Relation.ReflTransGen.head (Step.close _ rfl) ?_
  refine Relation.ReflTransGen.head (Step.recvJob _ 0 7 [] (by rfl) rfl) ?_
  refine Relation.ReflTransGen.head (Step.finish _ 0 7 (by rfl)) ?_
  refine Relation.ReflTransGen.head (Step.recvClosed _ 0 (by rfl) rfl rfl) ?_
  exact Relation.ReflTransGen.refl

end Threadpool
